import Mathlib

/-!
Verification of the fractal expansion engine and rule-matrix text codec of
the magic_cube application (src/magic_cube/src/main.rs).

The rule matrix is `Vec<Vec<u32>>` in the source, embedded as
`List (List Nat)` (every `u32` value is a natural number below `2 ^ 32`; the
decoder's parse step checks the bound explicitly).  The `f32` scale and the
`Vec3` position are idealized as rational numbers, which makes the scale and
offset arithmetic exact.  The expander `spawn_fractal_recursive` emits cubes
through Bevy commands in the source; here it returns the list of emitted
placements in emission order, which captures both the multiset of leaves and
the deterministic order in which they are spawned.  Strings are embedded as
`String` / `List Char`; Rust's `str::split` on a one-character separator,
`str::trim` and `u32::from_str` are embedded by `splitOnChar`, `trimChars`
and `parseU32` below.
-/

namespace MagicCube

/-- A 3D vector (models bevy Vec3; the three f32 components are idealized
as rationals). -/
structure Vec3 where
  x : ℚ
  y : ℚ
  z : ℚ
deriving DecidableEq, Repr

instance : Add Vec3 :=
  ⟨fun a b => ⟨a.x + b.x, a.y + b.y, a.z + b.z⟩⟩

/-- One emitted leaf cube: the `scale` and `position` passed to `spawn_cube`. -/
structure Placement where
  scale : ℚ
  position : Vec3
deriving DecidableEq, Repr

/-- The default rule matrix constant `FRACTAL_DEF` from the source. -/
def FRACTAL_DEF : List (List Nat) :=
  [[2, 3, 0, 1], [1, 2, 3, 0], [0, 1, 2, 3], [3, 0, 1, 2]]

/-- The offset `Vec3::new(i * new_scale, j * new_scale, fractal_def[i][j] * new_scale)`
added to the parent position for the child at row `i`, column `j`. -/
def child_offset (fractal_def : List (List Nat)) (new_scale : ℚ) (i j : Nat) : Vec3 :=
  ⟨(i : ℚ) * new_scale, (j : ℚ) * new_scale,
    (((fractal_def.getD i []).getD j 0 : ℚ)) * new_scale⟩

/-- Direct embedding of `spawn_fractal_recursive`: at depth 0 it spawns a
single cube at the given scale and position; otherwise it divides the scale
by the row count and recurses over every index pair `(i, j)` of the rule
matrix, in loop order.  The returned list records the spawned cubes in
emission order. -/
def spawn_fractal_recursive (scale : ℚ) (position : Vec3) (n : Nat)
    (fractal_def : List (List Nat)) : List Placement :=
  match n with
  | 0 => [{ scale := scale, position := position }]
  | m + 1 =>
    let new_scale := scale / (fractal_def.length : ℚ)
    (List.range fractal_def.length).flatMap fun i =>
      (List.range (fractal_def.getD i []).length).flatMap fun j =>
        spawn_fractal_recursive new_scale
          (position + child_offset fractal_def new_scale i j) m fractal_def

/-- The placements contributed by the inner loop body for one outer-loop
index `i` (one row of the rule matrix) at one recursion step. -/
def row_contribution (fractal_def : List (List Nat)) (new_scale : ℚ)
    (position : Vec3) (n : Nat) (i : Nat) : List Placement :=
  (List.range (fractal_def.getD i []).length).flatMap fun j =>
    spawn_fractal_recursive new_scale
      (position + child_offset fractal_def new_scale i j) n fractal_def

/-- The total number of matrix entries, `Σ_i (length of row i)`: the
branching factor of one recursion step. -/
def total_entries (fractal_def : List (List Nat)) : Nat :=
  (fractal_def.map List.length).sum

/-- All `(row index, element index)` pairs of the rule matrix, in the
nested loop order of the source (outer loop over rows, inner loop over the
elements of that row). -/
def subcells (fractal_def : List (List Nat)) : List (Nat × Nat) :=
  (List.range fractal_def.length).flatMap fun i =>
    (List.range (fractal_def.getD i []).length).map fun j => (i, j)

/-- All descent paths of length `n` through the recursion tree, in
pre-order (lexicographic) order. -/
def leafPaths (fractal_def : List (List Nat)) : Nat → List (List (Nat × Nat))
  | 0 => [[]]
  | m + 1 =>
    (subcells fractal_def).flatMap fun ij =>
      (leafPaths fractal_def m).map fun rest => ij :: rest

/-- The placement reached by descending along one path of `(i, j)` choices
from a given base scale and position. -/
def placeAt (fractal_def : List (List Nat)) : ℚ → Vec3 → List (Nat × Nat) → Placement
  | scale, position, [] => { scale := scale, position := position }
  | scale, position, (i, j) :: rest =>
    let new_scale := scale / (fractal_def.length : ℚ)
    placeAt fractal_def new_scale
      (position + child_offset fractal_def new_scale i j) rest

/-- Splitting a character list at every occurrence of a separator
character: the embedding of Rust's `str::split` with a one-character
pattern.  Splitting the empty string yields one empty piece, and `n`
separators yield `n + 1` pieces. -/
def splitOnChar (sep : Char) : List Char → List (List Char)
  | [] => [[]]
  | c :: cs =>
    match splitOnChar sep cs with
    | [] => if c = sep then [[], []] else [[c]]
    | r :: rs => if c = sep then [] :: r :: rs else (c :: r) :: rs

/-- Removing leading and trailing whitespace: the embedding of
Rust's `str::trim`. -/
def trimChars (s : List Char) : List Char :=
  ((s.dropWhile Char.isWhitespace).reverse.dropWhile Char.isWhitespace).reverse

/-- Accumulating decimal digits, failing on the first non-digit
character. -/
def parseDigitsAux (acc : Nat) : List Char → Option Nat
  | [] => some acc
  | c :: cs =>
    if c.isDigit then parseDigitsAux (10 * acc + (c.toNat - 48)) cs else none

/-- A non-empty all-digit string parsed to its decimal value; anything
else fails. -/
def parseDigits : List Char → Option Nat
  | [] => none
  | c :: cs => if c.isDigit then parseDigitsAux (c.toNat - 48) cs else none

/-- The embedding of Rust's `"...".parse::<u32>()`: an optional leading
plus sign, then one or more decimal digits, and the value must fit in 32
bits (otherwise the parse fails with an overflow error, observationally the
same as any other parse failure here). -/
def parseU32 (s : List Char) : Option Nat :=
  let core :=
    match s with
    | [] => none
    | c :: rest => if c = '+' then parseDigits rest else parseDigits (c :: rest)
  match core with
  | some v => if v < 2 ^ 32 then some v else none
  | none => none

/-- The decoder's inner loop body, `if let Ok(num) = elem.trim().parse::<u32>()
{ row_vec.push(num) }`: push the token's value when it parses, otherwise
leave the row unchanged. -/
def push_if_parsed (row_vec : List Nat) (elem : List Char) : List Nat :=
  match parseU32 (trimChars elem) with
  | some num => row_vec ++ [num]
  | none => row_vec

/-- Direct embedding of `str_to_fractal_def`: split the input on the row
separator, split each raw row on the element separator, trim each token,
and push every token that parses; tokens that fail to parse are skipped. -/
def str_to_fractal_def (fractal_def_input : String) : List (List Nat) :=
  (splitOnChar '|' fractal_def_input.data).foldl
    (fun fractal_def_vec row =>
      fractal_def_vec ++ [(splitOnChar ',' row).foldl push_if_parsed []])
    []

/-- The decimal digit characters of a natural number, most significant
first: the embedding of Rust's `u32::to_string`. -/
def natToChars (n : Nat) : List Char :=
  if n = 0 then ['0']
  else ((Nat.digits 10 n).map fun d => Char.ofNat (48 + d)).reverse

/-- Joining pieces with a separator character between consecutive pieces:
the embedding of Rust's `Vec::join` on strings. -/
def joinWith (sep : Char) : List (List Char) → List Char
  | [] => []
  | [x] => x
  | x :: y :: ys => x ++ sep :: joinWith sep (y :: ys)

/-- Direct embedding of `build_fractal_def_str`: render every entry in
decimal, join each row's entries with the element separator, and join the
rows with the row separator. -/
def build_fractal_def_str (fractal_def : List (List Nat)) : String :=
  ⟨joinWith '|' (fractal_def.map fun x => joinWith ',' (x.map natToChars))⟩

theorem spawn_succ_eq (scale : ℚ) (position : Vec3) (m : Nat)
    (fractal_def : List (List Nat)) :
    spawn_fractal_recursive scale position (m + 1) fractal_def =
      (List.range fractal_def.length).flatMap
        (row_contribution fractal_def (scale / (fractal_def.length : ℚ)) position m) :=
  rfl

theorem map_getD_range {α : Type} (l : List α) (d : α) :
    (List.range l.length).map (fun i => l.getD i d) = l := by
  induction l with
  | nil => rfl
  | cons a t ih =>
    simp only [List.length_cons, List.range_succ_eq_map, List.map_cons, List.map_map]
    refine congrArg₂ (· :: ·) rfl ?_
    calc List.map ((fun i => (a :: t).getD i d) ∘ Nat.succ) (List.range t.length)
        = List.map (fun i => t.getD i d) (List.range t.length) :=
          List.map_congr_left (fun i _ => rfl)
      _ = t := ih

theorem length_spawn (fractal_def : List (List Nat)) :
    ∀ (n : Nat) (scale : ℚ) (position : Vec3),
      (spawn_fractal_recursive scale position n fractal_def).length =
        (total_entries fractal_def) ^ n := by
  intro n
  induction n with
  | zero => intro s p; rfl
  | succ m ih =>
    intro s p
    rw [spawn_succ_eq]
    rw [List.length_flatMap]
    have hinner : ∀ i,
        (row_contribution fractal_def (s / (fractal_def.length : ℚ)) p m i).length =
          (fractal_def.getD i []).length * (total_entries fractal_def) ^ m := by
      intro i
      rw [row_contribution, List.length_flatMap]
      have : (List.map
          (List.length ∘ fun j =>
            spawn_fractal_recursive (s / (fractal_def.length : ℚ))
              (p + child_offset fractal_def (s / (fractal_def.length : ℚ)) i j) m
              fractal_def)
          (List.range (fractal_def.getD i []).length)) =
          List.replicate (fractal_def.getD i []).length
            ((total_entries fractal_def) ^ m) := by
        refine List.eq_replicate_iff.mpr ⟨by simp, ?_⟩
        intro x hx
        rcases List.mem_map.mp hx with ⟨j, _, rfl⟩
        simpa [Function.comp] using ih (s / (fractal_def.length : ℚ))
          (p + child_offset fractal_def (s / (fractal_def.length : ℚ)) i j)
      rw [this, List.sum_replicate, smul_eq_mul]
    have hmap : List.map
        (List.length ∘ row_contribution fractal_def (s / (fractal_def.length : ℚ)) p m)
        (List.range fractal_def.length) =
        List.map (fun i => (fractal_def.getD i []).length * (total_entries fractal_def) ^ m)
          (List.range fractal_def.length) := by
      apply List.map_congr_left
      intro i _
      simpa [Function.comp] using hinner i
    rw [hmap, List.sum_map_mul_right]
    have hsum : (List.map (fun i => (fractal_def.getD i []).length)
        (List.range fractal_def.length)).sum = total_entries fractal_def := by
      have : List.map (fun i => (fractal_def.getD i []).length)
          (List.range fractal_def.length) =
          List.map List.length fractal_def := by
        have h := map_getD_range fractal_def []
        calc List.map (fun i => (fractal_def.getD i []).length)
              (List.range fractal_def.length)
            = List.map List.length
                ((List.range fractal_def.length).map (fun i => fractal_def.getD i [])) := by
              rw [List.map_map]; rfl
          _ = List.map List.length fractal_def := by rw [h]
      rw [this, total_entries]
    rw [hsum, pow_succ, mul_comm]

theorem scale_mem_spawn (fractal_def : List (List Nat)) :
    ∀ (n : Nat) (scale : ℚ) (position : Vec3) (pl : Placement),
      pl ∈ spawn_fractal_recursive scale position n fractal_def →
      pl.scale = scale / (fractal_def.length : ℚ) ^ n := by
  intro n
  induction n with
  | zero =>
    intro s p pl h
    simp only [spawn_fractal_recursive, List.mem_singleton] at h
    subst h
    simp
  | succ m ih =>
    intro s p pl h
    rw [spawn_succ_eq] at h
    simp only [List.mem_flatMap, row_contribution] at h
    obtain ⟨i, _, j, _, hmem⟩ := h
    have hscale := ih _ _ _ hmem
    rw [hscale, div_div, ← pow_succ']

theorem spawn_eq_paths (fractal_def : List (List Nat)) :
    ∀ (n : Nat) (scale : ℚ) (position : Vec3),
      spawn_fractal_recursive scale position n fractal_def =
        (leafPaths fractal_def n).map (placeAt fractal_def scale position) := by
  intro n
  induction n with
  | zero => intro s p; rfl
  | succ m ih =>
    intro s p
    show ((List.range fractal_def.length).flatMap fun i =>
        (List.range (fractal_def.getD i []).length).flatMap fun j =>
          spawn_fractal_recursive (s / (fractal_def.length : ℚ))
            (p + child_offset fractal_def (s / (fractal_def.length : ℚ)) i j)
            m fractal_def) = _
    rw [leafPaths, subcells, List.map_flatMap, List.flatMap_assoc]
    simp only [List.flatMap_map, List.map_map]
    refine congrArg _ (funext fun i => congrArg _ (funext fun j => ?_))
    rw [ih]
    exact List.map_congr_left fun rest _ => rfl

theorem foldl_push_eq_map {α β : Type} (g : α → β) :
    ∀ (l : List α) (init : List β),
      l.foldl (fun acc x => acc ++ [g x]) init = init ++ l.map g := by
  intro l
  induction l with
  | nil => intro init; simp
  | cons a t ih => intro init; simp [ih]

theorem foldl_push_if_parsed :
    ∀ (l : List (List Char)) (init : List Nat),
      l.foldl push_if_parsed init =
        init ++ l.filterMap fun elem => parseU32 (trimChars elem) := by
  intro l
  induction l with
  | nil => intro init; simp
  | cons a t ih =>
    intro init
    rw [List.foldl_cons, List.filterMap_cons]
    cases h : parseU32 (trimChars a) with
    | none => simp only [push_if_parsed, h, ih]
    | some b =>
      simp only [push_if_parsed, h, ih, List.append_assoc, List.singleton_append]

theorem str_to_fractal_def_eq (s : String) :
    str_to_fractal_def s =
      (splitOnChar '|' s.data).map fun row =>
        (splitOnChar ',' row).filterMap fun elem => parseU32 (trimChars elem) := by
  rw [str_to_fractal_def]
  rw [foldl_push_eq_map (fun row => (splitOnChar ',' row).foldl push_if_parsed [])]
  rw [List.nil_append]
  refine List.map_congr_left fun row _ => ?_
  rw [foldl_push_if_parsed, List.nil_append]

theorem splitOnChar_ne_nil (sep : Char) : ∀ s : List Char, splitOnChar sep s ≠ [] := by
  intro s
  induction s with
  | nil => simp [splitOnChar]
  | cons c cs ih =>
    rw [splitOnChar]
    cases h : splitOnChar sep cs with
    | nil => exact absurd h ih
    | cons r rs =>
      by_cases hc : c = sep <;> simp [hc]

theorem splitOnChar_no_sep (sep : Char) :
    ∀ s : List Char, sep ∉ s → splitOnChar sep s = [s] := by
  intro s
  induction s with
  | nil => intro _; rfl
  | cons c cs ih =>
    intro h
    have hc : c ≠ sep := fun hc => h (hc ▸ List.mem_cons_self c cs)
    have hcs : sep ∉ cs := fun hm => h (List.mem_cons_of_mem c hm)
    rw [splitOnChar, ih hcs]
    simp [hc]

theorem splitOnChar_cons_self (sep : Char) (s : List Char) :
    splitOnChar sep (sep :: s) = [] :: splitOnChar sep s := by
  cases h : splitOnChar sep s with
  | nil => exact absurd h (splitOnChar_ne_nil sep s)
  | cons r rs => rw [splitOnChar, h]; simp

theorem splitOnChar_append (sep : Char) :
    ∀ (p : List Char), sep ∉ p →
      ∀ (s r : List Char) (rs : List (List Char)),
        splitOnChar sep s = r :: rs →
        splitOnChar sep (p ++ s) = (p ++ r) :: rs := by
  intro p
  induction p with
  | nil => intro _ s r rs h; simpa using h
  | cons c cs ih =>
    intro hns s r rs h
    have hc : c ≠ sep := fun hc => hns (hc ▸ List.mem_cons_self c cs)
    have hcs : sep ∉ cs := fun hm => hns (List.mem_cons_of_mem c hm)
    have htail := ih hcs s r rs h
    show splitOnChar sep (c :: (cs ++ s)) = _
    rw [splitOnChar, htail]
    simp [hc]

theorem splitOnChar_joinWith (sep : Char) :
    ∀ ps : List (List Char), ps ≠ [] → (∀ p ∈ ps, sep ∉ p) →
      splitOnChar sep (joinWith sep ps) = ps := by
  intro ps
  induction ps with
  | nil => intro h; exact absurd rfl h
  | cons x t ih =>
    intro _ hmem
    cases t with
    | nil => exact splitOnChar_no_sep sep x (hmem x (List.mem_cons_self x []))
    | cons y ys =>
      have hx : sep ∉ x := hmem x (List.mem_cons_self x (y :: ys))
      have hrest : splitOnChar sep (joinWith sep (y :: ys)) = y :: ys :=
        ih (by simp) (fun p hp => hmem p (List.mem_cons_of_mem x hp))
      have hsep : splitOnChar sep (sep :: joinWith sep (y :: ys)) =
          [] :: y :: ys := by
        rw [splitOnChar_cons_self, hrest]
      show splitOnChar sep (x ++ sep :: joinWith sep (y :: ys)) = x :: y :: ys
      have := splitOnChar_append sep x hx (sep :: joinWith sep (y :: ys)) [] (y :: ys) hsep
      simpa using this

theorem mem_joinWith (sep : Char) :
    ∀ (ps : List (List Char)) (c : Char),
      c ∈ joinWith sep ps → c = sep ∨ ∃ p ∈ ps, c ∈ p := by
  intro ps
  induction ps with
  | nil => intro c h; simp [joinWith] at h
  | cons x t ih =>
    intro c h
    cases t with
    | nil => exact Or.inr ⟨x, List.mem_cons_self x [], h⟩
    | cons y ys =>
      rw [joinWith] at h
      rcases List.mem_append.mp h with hx | hrest
      · exact Or.inr ⟨x, List.mem_cons_self x (y :: ys), hx⟩
      · rcases List.mem_cons.mp hrest with hc | hjoin
        · exact Or.inl hc
        · rcases ih c hjoin with hc | ⟨p, hp, hcp⟩
          · exact Or.inl hc
          · exact Or.inr ⟨p, List.mem_cons_of_mem x hp, hcp⟩

theorem ofNat_digit_props (d : Nat) (hd : d < 10) :
    (Char.ofNat (48 + d)).isDigit = true ∧
    (Char.ofNat (48 + d)).isWhitespace = false ∧
    Char.ofNat (48 + d) ≠ ',' ∧ Char.ofNat (48 + d) ≠ '|' ∧
    Char.ofNat (48 + d) ≠ '+' ∧ (Char.ofNat (48 + d)).toNat - 48 = d := by
  interval_cases d <;> decide

theorem natToChars_mem (n : Nat) (c : Char) (hc : c ∈ natToChars n) :
    ∃ d, d < 10 ∧ c = Char.ofNat (48 + d) := by
  rw [natToChars] at hc
  by_cases hn : n = 0
  · rw [if_pos hn] at hc
    refine ⟨0, by norm_num, ?_⟩
    simpa using hc
  · rw [if_neg hn] at hc
    rcases List.mem_map.mp (List.mem_reverse.mp hc) with ⟨d, hd, rfl⟩
    exact ⟨d, Nat.digits_lt_base (by norm_num) hd, rfl⟩

theorem dropWhile_false {p : Char → Bool} :
    ∀ s : List Char, (∀ c ∈ s, p c = false) → s.dropWhile p = s := by
  intro s
  induction s with
  | nil => intro _; rfl
  | cons c cs ih =>
    intro h
    rw [List.dropWhile_cons, h c (List.mem_cons_self c cs)]
    simp

theorem trimChars_eq_self (s : List Char)
    (h : ∀ c ∈ s, c.isWhitespace = false) : trimChars s = s := by
  rw [trimChars, dropWhile_false s h, dropWhile_false, List.reverse_reverse]
  intro c hc
  exact h c (List.mem_reverse.mp hc)

theorem foldl_reverse_ofDigits :
    ∀ (L : List Nat) (acc : Nat),
      L.reverse.foldl (fun a d => 10 * a + d) acc =
        acc * 10 ^ L.length + Nat.ofDigits 10 L := by
  intro L
  induction L with
  | nil => intro acc; simp [Nat.ofDigits_nil]
  | cons d t ih =>
    intro acc
    rw [List.reverse_cons, List.foldl_concat, ih, Nat.ofDigits_cons,
      List.length_cons]
    ring

theorem parseDigitsAux_map :
    ∀ (ds : List Nat), (∀ d ∈ ds, d < 10) → ∀ (acc : Nat),
      parseDigitsAux acc (ds.map fun d => Char.ofNat (48 + d)) =
        some (ds.foldl (fun a d => 10 * a + d) acc) := by
  intro ds
  induction ds with
  | nil => intro _ acc; rfl
  | cons d t ih =>
    intro h acc
    have hd : d < 10 := h d (List.mem_cons_self d t)
    obtain ⟨hdig, _, _, _, _, htn⟩ := ofNat_digit_props d hd
    rw [List.map_cons, parseDigitsAux, hdig, if_pos rfl, htn,
      ih (fun x hx => h x (List.mem_cons_of_mem d hx)), List.foldl_cons]

theorem parseU32_cons_ne_plus (c : Char) (cs : List Char) (hc : ¬ c = '+')
    (v : Nat) (hp : parseDigits (c :: cs) = some v) (hv : v < 2 ^ 32) :
    parseU32 (c :: cs) = some v := by
  simp only [parseU32]
  rw [if_neg hc, hp]
  show (if v < 2 ^ 32 then some v else none) = some v
  rw [if_pos hv]

theorem parseU32_natToChars (n : Nat) (hn : n < 2 ^ 32) :
    parseU32 (natToChars n) = some n := by
  by_cases h0 : n = 0
  · subst h0; decide
  · have hds : ∀ d ∈ (Nat.digits 10 n).reverse, d < 10 := fun d hd =>
      Nat.digits_lt_base (by norm_num) (List.mem_reverse.mp hd)
    have hchars : natToChars n =
        (Nat.digits 10 n).reverse.map fun d => Char.ofNat (48 + d) := by
      rw [natToChars, if_neg h0, List.map_reverse]
    cases hrev : (Nat.digits 10 n).reverse with
    | nil =>
      exact absurd (List.reverse_eq_nil_iff.mp hrev)
        (Nat.digits_ne_nil_iff_ne_zero.mpr h0)
    | cons d0 rest =>
      have hd0 : d0 < 10 := hds d0 (hrev ▸ List.mem_cons_self d0 rest)
      obtain ⟨hdig, _, _, _, hplus, htn⟩ := ofNat_digit_props d0 hd0
      have hrest : ∀ d ∈ rest, d < 10 := fun d hd =>
        hds d (hrev ▸ List.mem_cons_of_mem d0 hd)
      have hval : parseDigits (natToChars n) = some n := by
        rw [hchars, hrev, List.map_cons, parseDigits, hdig, if_pos rfl, htn,
          parseDigitsAux_map rest hrest]
        have : rest.foldl (fun a d => 10 * a + d) d0 =
            (Nat.digits 10 n).reverse.foldl (fun a d => 10 * a + d) 0 := by
          rw [hrev, List.foldl_cons]
          norm_num
        rw [this, foldl_reverse_ofDigits, Nat.ofDigits_digits]
        simp
      have hhead : natToChars n = Char.ofNat (48 + d0) ::
          (rest.map fun d => Char.ofNat (48 + d)) := by
        rw [hchars, hrev, List.map_cons]
      rw [hhead]
      exact parseU32_cons_ne_plus _ _ hplus n (hhead ▸ hval) hn

theorem filterMap_eq_self {A : Type} (f : A -> Option A) :
    forall l : List A, (forall x, x ∈ l -> f x = some x) -> l.filterMap f = l := by
  intro l
  induction l with
  | nil => intro _; rfl
  | cons a t ih =>
    intro h
    rw [List.filterMap_cons, h a (List.mem_cons_self a t),
      ih fun x hx => h x (List.mem_cons_of_mem a hx)]

theorem mem_encoded_row (row : List Nat) (c : Char)
    (hc : c ∈ joinWith ',' (row.map natToChars)) :
    c = ',' ∨ ∃ d, d < 10 ∧ c = Char.ofNat (48 + d) := by
  rcases mem_joinWith ',' (row.map natToChars) c hc with h | ⟨p, hp, hcp⟩
  · exact Or.inl h
  · rcases List.mem_map.mp hp with ⟨x, _, rfl⟩
    exact Or.inr (natToChars_mem x c hcp)

theorem decode_encoded_row (row : List Nat) (hb : forall x, x ∈ row -> x < 2 ^ 32) :
    (splitOnChar ',' (joinWith ',' (row.map natToChars))).filterMap
      (fun elem => parseU32 (trimChars elem)) = row := by
  cases row with
  | nil => rfl
  | cons x t =>
    have hnosep : forall p, p ∈ (x :: t).map natToChars -> ',' ∉ p := by
      intro p hp hmem
      rcases List.mem_map.mp hp with ⟨y, _, rfl⟩
      rcases natToChars_mem y ',' hmem with ⟨d, hd, hdc⟩
      exact (ofNat_digit_props d hd).2.2.1 hdc.symm
    rw [splitOnChar_joinWith ',' ((x :: t).map natToChars) (by simp) hnosep,
      List.filterMap_map]
    refine filterMap_eq_self _ _ fun y hy => ?_
    have htrim : trimChars (natToChars y) = natToChars y := by
      refine trimChars_eq_self _ fun c hc => ?_
      rcases natToChars_mem y c hc with ⟨d, hd, rfl⟩
      exact (ofNat_digit_props d hd).2.1
    show parseU32 (trimChars (natToChars y)) = some y
    rw [htrim, parseU32_natToChars y (hb y hy)]

theorem decode_encode (m : List (List Nat)) (hne : m ≠ [])
    (hb : forall row, row ∈ m -> forall x, x ∈ row -> x < 2 ^ 32) :
    str_to_fractal_def (build_fractal_def_str m) = m := by
  rw [str_to_fractal_def_eq]
  have hdata : (build_fractal_def_str m).data =
      joinWith '|' (m.map fun x => joinWith ',' (x.map natToChars)) := rfl
  rw [hdata]
  have hnosep : forall p, p ∈ m.map (fun x => joinWith ',' (x.map natToChars)) ->
      '|' ∉ p := by
    intro p hp hmem
    rcases List.mem_map.mp hp with ⟨row, _, rfl⟩
    rcases mem_encoded_row row '|' hmem with h | ⟨d, hd, hdc⟩
    · exact absurd h (by decide)
    · exact (ofNat_digit_props d hd).2.2.2.1 hdc.symm
  rw [splitOnChar_joinWith '|' _ (by simpa using hne) hnosep, List.map_map]
  have hrows : forall row, row ∈ m ->
      ((fun row => (splitOnChar ',' row).filterMap
          fun elem => parseU32 (trimChars elem)) ∘
        (fun x => joinWith ',' (x.map natToChars))) row = row := by
    intro row hrow
    exact decode_encoded_row row (fun x hx => hb row hrow x hx)
  rw [List.map_congr_left hrows]
  exact List.map_id m

theorem Vec3.add_def (a b : Vec3) :
    a + b = ⟨a.x + b.x, a.y + b.y, a.z + b.z⟩ :=
  rfl

/-- C1: for every square rule matrix of dimension N (row count N, every row
of length N, N ≥ 1), every depth D, base scale and base position, the
expansion produces exactly (N * N)^D leaf placements. -/
theorem fractal_leaf_count_law (fractal_def : List (List Nat)) (N D : Nat)
    (hN : 1 ≤ N) (hdim : fractal_def.length = N)
    (hrows : ∀ row, row ∈ fractal_def → row.length = N)
    (scale : ℚ) (position : Vec3) :
    (spawn_fractal_recursive scale position D fractal_def).length = (N * N) ^ D := by
  have hS : total_entries fractal_def = N * N := by
    rw [total_entries]
    have hrep : fractal_def.map List.length = List.replicate N N := by
      refine List.eq_replicate_iff.mpr ⟨by simpa using hdim, ?_⟩
      intro b hb
      rcases List.mem_map.mp hb with ⟨row, hrow, rfl⟩
      exact hrows row hrow
    rw [hrep, List.sum_replicate, smul_eq_mul]
  rw [length_spawn, hS]

theorem fractal_leaf_count_law_witness :
    ((1 : Nat) ≤ 2 ∧ ([[0, 1], [2, 3]] : List (List Nat)).length = 2 ∧
      (∀ row, row ∈ ([[0, 1], [2, 3]] : List (List Nat)) → row.length = 2)) ∧
    (spawn_fractal_recursive 4 ⟨0, 0, 0⟩ 2 [[0, 1], [2, 3]]).length = (2 * 2) ^ 2 :=
  ⟨⟨by decide, by decide, by decide⟩,
    fractal_leaf_count_law [[0, 1], [2, 3]] 2 2 (by decide) (by decide)
      (by decide) 4 ⟨0, 0, 0⟩⟩

/-- C2: decoding the encoding of any rule matrix with at least one row,
whose entries are non-negative integers representable as u32 values
(below 2^32), yields the identical matrix. -/
theorem fractal_roundtrip_law (m : List (List Nat)) (hne : m ≠ [])
    (hb : ∀ row, row ∈ m → ∀ x, x ∈ row → x < 2 ^ 32) :
    str_to_fractal_def (build_fractal_def_str m) = m :=
  decode_encode m hne hb

theorem fractal_roundtrip_law_witness :
    (FRACTAL_DEF ≠ [] ∧
      (∀ row, row ∈ FRACTAL_DEF → ∀ x, x ∈ row → x < 2 ^ 32)) ∧
    str_to_fractal_def (build_fractal_def_str FRACTAL_DEF) = FRACTAL_DEF :=
  ⟨⟨by decide, by decide⟩,
    fractal_roundtrip_law FRACTAL_DEF (by decide) (by decide)⟩

/-- C3: for every non-empty rule matrix, expansion with depth 0 produces
exactly one leaf placement, equal to the base scale and base position. -/
theorem fractal_depth_zero (fractal_def : List (List Nat))
    (hne : fractal_def ≠ []) (scale : ℚ) (position : Vec3) :
    spawn_fractal_recursive scale position 0 fractal_def =
      [{ scale := scale, position := position }] :=
  rfl

theorem fractal_depth_zero_witness :
    FRACTAL_DEF ≠ [] ∧
    spawn_fractal_recursive 4 ⟨0, 0, 0⟩ 0 FRACTAL_DEF =
      [{ scale := 4, position := ⟨0, 0, 0⟩ }] :=
  ⟨by decide, fractal_depth_zero FRACTAL_DEF (by decide) 4 ⟨0, 0, 0⟩⟩

/-- C4: the source performs no pre-flight size guard.  Expanding a matrix
of dimension 10 (every row of length 10) at depth 8 runs the recursion to
completion and emits the full list of 10^16 leaf placements — far beyond a
ceiling of 10^5 or 10^6 — rather than failing with ExpansionTooLarge before
recursing (no error path exists in `spawn_fractal_recursive`). -/
theorem fractal_no_expansion_guard :
    (spawn_fractal_recursive 4 ⟨0, 0, 0⟩ 8
        (List.replicate 10 (List.replicate 10 0))).length = 10 ^ 16 ∧
    (1000000 : Nat) < 10 ^ 16 := by
  constructor
  · rw [length_spawn]
    have ht : total_entries (List.replicate 10 (List.replicate 10 (0 : Nat))) =
        100 := by decide
    rw [ht]
    norm_num
  · norm_num

/-- C5: the source performs no empty-matrix check.  Expanding a zero-row
matrix at any depth ≥ 1 silently emits no placements (the division
`scale / 0` is computed but no loop iteration ever uses it) instead of
failing fast with EmptyRuleMatrix — no error path exists in
`spawn_fractal_recursive`. -/
theorem fractal_empty_matrix_no_failure :
    (∀ (scale : ℚ) (position : Vec3) (d : Nat),
      spawn_fractal_recursive scale position (d + 1) [] = []) ∧
    spawn_fractal_recursive 4 ⟨0, 0, 0⟩ 1 [] = [] :=
  ⟨fun _ _ _ => rfl, rfl⟩

/-- C6: the decoder splits the input on the row separator, splits each raw
row on the element separator, trims each token, and silently drops every
token that fails to parse as a non-negative u32 integer; decoding
"1,x,2|3,,4" yields exactly the rows [1,2] and [3,4], and a row whose
every token fails to parse becomes an empty row. -/
theorem fractal_lenient_parsing :
    (∀ s : String, str_to_fractal_def s =
      (splitOnChar '|' s.data).map fun row =>
        (splitOnChar ',' row).filterMap fun elem => parseU32 (trimChars elem)) ∧
    str_to_fractal_def ("1,x,2|3,,4") = [[1, 2], [3, 4]] ∧
    str_to_fractal_def ("x, ,foo") = [[]] :=
  ⟨str_to_fractal_def_eq, by decide, by decide⟩

/-- C7: every placement emitted by expanding a non-empty rule matrix to
depth D has scale equal to the base scale divided by dimension^D, where the
dimension is the row count. -/
theorem fractal_scale_law (fractal_def : List (List Nat))
    (hne : fractal_def ≠ []) (D : Nat) (scale : ℚ) (position : Vec3)
    (pl : Placement)
    (hmem : pl ∈ spawn_fractal_recursive scale position D fractal_def) :
    pl.scale = scale / (fractal_def.length : ℚ) ^ D :=
  scale_mem_spawn fractal_def D scale position pl hmem

theorem fractal_scale_law_witness :
    (([[2]] : List (List Nat)) ≠ [] ∧
      ({ scale := 4, position := ⟨0, 0, 8⟩ } : Placement) ∈
        spawn_fractal_recursive 4 ⟨0, 0, 0⟩ 1 [[2]]) ∧
    ({ scale := 4, position := ⟨0, 0, 8⟩ } : Placement).scale =
      4 / ((([[2]] : List (List Nat)).length : ℚ)) ^ 1 := by
  have hmem : ({ scale := 4, position := ⟨0, 0, 8⟩ } : Placement) ∈
      spawn_fractal_recursive 4 ⟨0, 0, 0⟩ 1 [[2]] := by
    have hexp : spawn_fractal_recursive 4 ⟨0, 0, 0⟩ 1 [[2]] =
        [{ scale := 4, position := ⟨0, 0, 8⟩ }] := by
      simp [spawn_fractal_recursive, child_offset, List.getD, Vec3.add_def,
        List.range_succ]
      norm_num
    rw [hexp]
    exact List.mem_singleton.mpr rfl
  exact ⟨⟨by decide, hmem⟩,
    fractal_scale_law [[2]] (by decide) 1 4 ⟨0, 0, 0⟩ _ hmem⟩

/-- C8: the expander is a pure function of (matrix, depth, scale,
position): two invocations with identical arguments return the identical
ordered sequence, and that sequence enumerates the recursion tree in
pre-order — the map of `placeAt` over the lexicographically ordered descent
paths built from outer-to-inner (row index, element index) iteration. -/
theorem fractal_determinism_order (fractal_def : List (List Nat)) (n : Nat)
    (scale : ℚ) (position : Vec3) :
    spawn_fractal_recursive scale position n fractal_def =
      spawn_fractal_recursive scale position n fractal_def ∧
    spawn_fractal_recursive scale position n fractal_def =
      (leafPaths fractal_def n).map (placeAt fractal_def scale position) :=
  ⟨rfl, spawn_eq_paths fractal_def n scale position⟩

/-- C9: a zero-length row at index i of a non-empty rule matrix is not an
error: one expansion step is exactly the concatenation of the per-row
contributions in row order, and the contribution of row i is empty (its
inner loop body never runs), silently shrinking the tree at that branch. -/
theorem fractal_empty_row_branch (fractal_def : List (List Nat)) (i : Nat)
    (hi : i < fractal_def.length) (hrow : fractal_def.getD i [] = [])
    (scale : ℚ) (position : Vec3) (n : Nat) :
    row_contribution fractal_def (scale / (fractal_def.length : ℚ))
        position n i = [] ∧
    spawn_fractal_recursive scale position (n + 1) fractal_def =
      (List.range fractal_def.length).flatMap
        (row_contribution fractal_def (scale / (fractal_def.length : ℚ))
          position n) := by
  constructor
  · rw [row_contribution, hrow]
    rfl
  · exact spawn_succ_eq scale position n fractal_def

theorem fractal_empty_row_branch_witness :
    ((1 : Nat) < ([[1], []] : List (List Nat)).length ∧
      ([[1], []] : List (List Nat)).getD 1 [] = []) ∧
    (row_contribution [[1], []]
        ((1 : ℚ) / ((([[1], []] : List (List Nat)).length : ℚ))) ⟨0, 0, 0⟩ 0 1 = [] ∧
      spawn_fractal_recursive 1 ⟨0, 0, 0⟩ (0 + 1) [[1], []] =
        (List.range ([[1], []] : List (List Nat)).length).flatMap
          (row_contribution [[1], []]
            ((1 : ℚ) / ((([[1], []] : List (List Nat)).length : ℚ))) ⟨0, 0, 0⟩ 0)) :=
  ⟨⟨by decide, by decide⟩,
    fractal_empty_row_branch [[1], []] 1 (by decide) (by decide) 1 ⟨0, 0, 0⟩ 0⟩

/-- C10: for every input string the decoder returns a matrix with at least
one row — the empty string (and any input with no parseable token and no
row separator) decodes to exactly one empty row, never zero rows — so a
zero-dimension matrix is unreachable through the text-decoding interface. -/
theorem fractal_decoder_min_rows :
    (∀ s : String, 1 ≤ (str_to_fractal_def s).length) ∧
    str_to_fractal_def ("") = [[]] := by
  constructor
  · intro s
    rw [str_to_fractal_def_eq, List.length_map]
    exact List.length_pos.mpr (splitOnChar_ne_nil '|' s.data)
  · decide

end MagicCube
